import Mathlib

/-!
# Verification of the clauductor session/process orchestration core

Shallow embedding, in Lean 4, of the parts of the `clauductor` repository
that the verified claims are about:

* `OutputParser` (`packages/server/src/services/ProcessPool.ts`) — the
  stateful auto-detecting output classifier.  JavaScript strings are
  embedded as `List Char`; the JS operations `split('\n')`, `trim()` and
  `startsWith('{')` are embedded as `jsSplit`, `jsTrim`, and pattern
  matching.  `JSON.parse` composed with the total mapping `mapToEvent` is
  embedded as an abstract oracle `jp : List Char → Option E` (`some e` iff
  `JSON.parse` succeeds on the line; `mapToEvent` never throws, so success
  of the composite coincides with success of `JSON.parse`).  A concrete
  executable JSON validity checker (`jsonOk`, below) instantiates the
  oracle in closed theorems.

* `SessionManager` (`packages/server/src/services/SessionManager.ts`) —
  session lifecycle, status transitions, output buffering.  External
  effects are passed explicitly: the spawn outcome of `ProcessPool.spawn`
  (which either returns a handle or throws synchronously) is an
  `Option String` argument, wall-clock timestamps are `String`/`Nat`
  arguments, the filesystem consulted by `validateWorkingDir` is an
  explicit record of predicates, and `setTimeout` timers are an explicit
  `Option Nat` deadline fired by an explicit step.

* `SessionRepository` (db/SessionRepository.ts) — the sessions table is a
  `List Row` in rowid (insertion) order; each SQL statement is embedded as
  a list transformation.  `ORDER BY updated_at DESC` carries no secondary
  sort key in the source SQL, so the embedding sorts stably on
  `updated_at` alone: rows that tie keep their table order.
-/

/-! ## JavaScript string primitives over `List Char` -/

/-- A JavaScript string, embedded as its character sequence. -/
abbrev Str := List Char

/-- Whitespace characters recognised by `trim()` (ASCII subset, which is
all the repository's inputs use). -/
def jsIsWs (c : Char) : Bool := c = ' ' || c = '\t' || c = '\n' || c = '\r'

/-- Embedding of JavaScript `s.trim()`. -/
def jsTrim (s : Str) : Str :=
  ((s.dropWhile jsIsWs).reverse.dropWhile jsIsWs).reverse

/-- Embedding of JavaScript `s.split('\n')`: the list of newline-separated
segments, always non-empty (`"".split('\n')` is `[""]`). -/
def jsSplit : Str → List Str
  | [] => [[]]
  | c :: rest =>
    if c = '\n' then [] :: jsSplit rest
    else
      match jsSplit rest with
      | [] => [[c]]
      | h :: t => (c :: h) :: t

/-- `lines.pop() || ''`: the last segment (the pending incomplete line). -/
def lastFrag : List Str → Str
  | [] => []
  | [l] => l
  | _ :: ls => lastFrag ls

/-- The segments remaining in `lines` after `lines.pop()`: every segment
but the last (the complete lines). -/
def initFrags : List Str → List Str
  | [] => []
  | [_] => []
  | l :: ls => l :: initFrags ls

/-- Glue a pending fragment onto the first segment of a split. -/
def glueFrag (p : Str) : List Str → List Str
  | [] => [p]
  | h :: t => (p ++ h) :: t

/-! ## OutputParser (ProcessPool.ts, class `OutputParser`) -/

/-- `OutputMode = 'auto' | 'raw' | 'json'` (the configured mode). -/
inductive OutputMode
  | auto
  | raw
  | json
deriving DecidableEq, Repr

/-- The values the `detectedMode` field can hold once set (`'raw' | 'json'`). -/
inductive DMode
  | raw
  | json
deriving DecidableEq, Repr

/-- `ParsedOutput.type : 'raw' | 'parsed'`. -/
inductive OType
  | raw
  | parsed
deriving DecidableEq, Repr

/-- Embedding of the `ParsedOutput` interface.  `E` is the type of
`ParsedEvent` values (left abstract: the claims below do not depend on the
shape of events, only on which lines produce one). -/
structure ParsedOutput (E : Type) where
  type : OType
  content : Str
  event : Option E
deriving DecidableEq, Repr

/-- The mutable fields of an `OutputParser` instance. -/
structure ParserState (E : Type) where
  mode : OutputMode
  detectedMode : Option DMode
  lineBuffer : Str
deriving DecidableEq, Repr

/-- A freshly constructed `OutputParser`: `mode = 'auto'`,
`detectedMode = null`, `lineBuffer = ''`. -/
def ParserState.initial (E : Type) : ParserState E := ⟨OutputMode.auto, none, []⟩

/-- `OutputParser.setMode`. -/
def setMode {E : Type} (st : ParserState E) (m : OutputMode) : ParserState E :=
  { st with
    mode := m
    detectedMode :=
      match m with
      | OutputMode.auto => st.detectedMode
      | OutputMode.raw => some DMode.raw
      | OutputMode.json => some DMode.json }

/-- `OutputParser.reset`: clear the line buffer; in `auto` mode also clear
the detected format. -/
def reset {E : Type} (st : ParserState E) : ParserState E :=
  { st with
    lineBuffer := []
    detectedMode := if st.mode = OutputMode.auto then none else st.detectedMode }

/-- `OutputParser.detectFormat`: trim the chunk; if it starts with `{`,
try `JSON.parse` on its first newline-delimited segment. -/
def detectFormat {E : Type} (jp : Str → Option E) (chunk : Str) : DMode :=
  let trimmed := jsTrim chunk
  match trimmed with
  | '{' :: _ =>
    match jp ((jsSplit trimmed).headD []) with
    | some _ => DMode.json
    | none => DMode.raw
  | _ => DMode.raw

/-- `OutputParser.parseLine`: `JSON.parse` the line; on success emit a
`parsed` output carrying the mapped event, on failure permanently set
`detectedMode = 'raw'` and emit the line as a `raw` output. -/
def parseLine {E : Type} (jp : Str → Option E) (st : ParserState E) (line : Str) :
    ParserState E × Option (ParsedOutput E) :=
  match jp line with
  | some e => (st, some ⟨OType.parsed, line, some e⟩)
  | none => ({ st with detectedMode := some DMode.raw }, some ⟨OType.raw, line, none⟩)

/-- The `for (const line of lines)` loop inside `parse`: process each
complete line, skipping lines that are blank after trimming, threading the
parser state (a malformed line flips `detectedMode`, but the loop itself
never re-checks it). -/
def processLines {E : Type} (jp : Str → Option E) (st : ParserState E) :
    List Str → ParserState E × List (ParsedOutput E)
  | [] => (st, [])
  | l :: ls =>
    if jsTrim l = [] then processLines jp st ls
    else
      match parseLine jp st l with
      | (st1, out) =>
        match processLines jp st1 ls with
        | (st2, outs) => (st2, out.toList ++ outs)

/-- `OutputParser.parse`. -/
def parse {E : Type} (jp : Str → Option E) (st : ParserState E) (chunk : Str) :
    ParserState E × List (ParsedOutput E) :=
  if st.mode = OutputMode.raw then
    ({ st with detectedMode := some DMode.raw }, [⟨OType.raw, chunk, none⟩])
  else
    let st1 :=
      if st.mode = OutputMode.auto ∧ st.detectedMode = none then
        { st with detectedMode := some (detectFormat jp chunk) }
      else st
    if st1.detectedMode = some DMode.raw then
      (st1, [⟨OType.raw, chunk, none⟩])
    else
      let lines := jsSplit (st1.lineBuffer ++ chunk)
      processLines jp { st1 with lineBuffer := lastFrag lines } (initFrags lines)

/-- Feed a sequence of chunks to one parser instance, collecting every
emitted output in order. -/
def feed {E : Type} (jp : Str → Option E) (st : ParserState E) :
    List Str → ParserState E × List (ParsedOutput E)
  | [] => (st, [])
  | c :: cs =>
    let r := parse jp st c
    let r' := feed jp r.1 cs
    (r'.1, r.2 ++ r'.2)

/-- The output `parseLine` produces for one non-blank line. -/
def lineOut {E : Type} (jp : Str → Option E) (l : Str) : ParsedOutput E :=
  match jp l with
  | some e => ⟨OType.parsed, l, some e⟩
  | none => ⟨OType.raw, l, none⟩

/-- Outputs emitted for a list of complete lines (blank lines skipped). -/
def lineOuts {E : Type} (jp : Str → Option E) (ls : List Str) : List (ParsedOutput E) :=
  ls.filterMap (fun l => if jsTrim l = [] then none else some (lineOut jp l))

/-- Every non-blank line in `ls` parses as JSON. -/
def allGood {E : Type} (jp : Str → Option E) (ls : List Str) : Bool :=
  ls.all (fun l => if jsTrim l = [] then true else (jp l).isSome)

/-! ## A concrete `JSON.parse` success checker

Executable recognizer of the JSON grammar (RFC 8259), used to instantiate
the abstract oracle `jp` in closed theorems.  Each parsing function takes
the remaining input and returns the input left after the recognised
construct, `none` on a syntax error; recursion is bounded by explicit
fuel. -/

def jDigit (c : Char) : Bool := '0' ≤ c && c ≤ '9'

def jHex (c : Char) : Bool :=
  jDigit c || ('a' ≤ c && c ≤ 'f') || ('A' ≤ c && c ≤ 'F')

def jSkipWs (s : Str) : Str := s.dropWhile jsIsWs

/-- Recognise the remainder of a JSON string, the opening quote already
consumed. -/
def jStringRest : Nat → Str → Option Str
  | 0, _ => none
  | _ + 1, [] => none
  | fuel + 1, c :: rest =>
    if c = '"' then some rest
    else if c = '\\' then
      match rest with
      | [] => none
      | e :: rest' =>
        if e = '"' || e = '\\' || e = '/' || e = 'b' || e = 'f' ||
           e = 'n' || e = 'r' || e = 't' then jStringRest fuel rest'
        else if e = 'u' then
          match rest' with
          | h1 :: h2 :: h3 :: h4 :: rest2 =>
            if jHex h1 && jHex h2 && jHex h3 && jHex h4 then jStringRest fuel rest2
            else none
          | _ => none
        else none
    else if c.toNat < 32 then none
    else jStringRest fuel rest

/-- Recognise one or more decimal digits. -/
def jDigits (s : Str) : Option Str :=
  if s.takeWhile jDigit = [] then none else some (s.dropWhile jDigit)

/-- Recognise a JSON number. -/
def jNumber (s : Str) : Option Str :=
  let s1 := match s with
    | '-' :: r => r
    | _ => s
  let sInt : Option Str :=
    match s1 with
    | '0' :: r => some r
    | c :: _ => if jDigit c then jDigits s1 else none
    | [] => none
  match sInt with
  | none => none
  | some s2 =>
    let s3 : Option Str :=
      match s2 with
      | '.' :: r => jDigits r
      | _ => some s2
    match s3 with
    | none => none
    | some s4 =>
      match s4 with
      | 'e' :: r | 'E' :: r =>
        (match r with
         | '+' :: r2 => jDigits r2
         | '-' :: r2 => jDigits r2
         | _ => jDigits r)
      | _ => some s4

mutual

/-- Recognise a JSON value (leading whitespace allowed). -/
def jVal : Nat → Str → Option Str
  | 0, _ => none
  | fuel + 1, s =>
    match jSkipWs s with
    | '{' :: r => jObjBody fuel (jSkipWs r)
    | '[' :: r => jArrBody fuel (jSkipWs r)
    | '"' :: r => jStringRest (r.length + 1) r
    | 't' :: r => if r.take 3 = ['r', 'u', 'e'] then some (r.drop 3) else none
    | 'f' :: r => if r.take 4 = ['a', 'l', 's', 'e'] then some (r.drop 4) else none
    | 'n' :: r => if r.take 3 = ['u', 'l', 'l'] then some (r.drop 3) else none
    | s1 => jNumber s1

/-- Recognise an object body after the opening brace and whitespace. -/
def jObjBody : Nat → Str → Option Str
  | 0, _ => none
  | fuel + 1, s =>
    match s with
    | '}' :: r => some r
    | _ => jMembers fuel s

/-- Recognise `string : value (, string : value)*` then the closing brace. -/
def jMembers : Nat → Str → Option Str
  | 0, _ => none
  | fuel + 1, s =>
    match jSkipWs s with
    | '"' :: r =>
      match jStringRest (r.length + 1) r with
      | none => none
      | some r2 =>
        match jSkipWs r2 with
        | ':' :: r3 =>
          match jVal fuel r3 with
          | none => none
          | some r4 =>
            match jSkipWs r4 with
            | ',' :: r5 => jMembers fuel r5
            | '}' :: r5 => some r5
            | _ => none
        | _ => none
    | _ => none

/-- Recognise an array body after the opening bracket and whitespace. -/
def jArrBody : Nat → Str → Option Str
  | 0, _ => none
  | fuel + 1, s =>
    match s with
    | ']' :: r => some r
    | _ => jItems fuel s

/-- Recognise `value (, value)*` then the closing bracket. -/
def jItems : Nat → Str → Option Str
  | 0, _ => none
  | fuel + 1, s =>
    match jVal fuel s with
    | none => none
    | some r =>
      match jSkipWs r with
      | ',' :: r2 => jItems fuel r2
      | ']' :: r2 => some r2
      | _ => none

end

/-- `JSON.parse(s)` succeeds: one JSON value, surrounded only by
whitespace. -/
def jsonOk (s : Str) : Bool :=
  match jVal (4 * s.length + 8) s with
  | some rest => jSkipWs rest = []
  | none => false

/-- The concrete parse oracle: `JSON.parse` success with the event payload
abstracted to `Unit` (the claims below about raw-versus-parsed
classification do not depend on the event payload). -/
def jpJson (s : Str) : Option Unit :=
  if jsonOk s then some () else none

/-- The JSON text `{"a":1}` as a character list. -/
def exLine : Str := ['{', '"', 'a', '"', ':', '1', '}']

/-- The line `not json` (which `JSON.parse` rejects). -/
def exBadLine : Str := ['n', 'o', 't', ' ', 'j', 's', 'o', 'n']

/-- First half of `{"a":1}\n` split mid-line: `{"a"`. -/
def cexChunk1 : Str := ['{', '"', 'a', '"']

/-- Second half of `{"a":1}\n` split mid-line: `:1}\n`. -/
def cexChunk2 : Str := [':', '1', '}', '\n']

/-! ## Session data model and SessionRepository (db/SessionRepository.ts)

The sessions table is a `List Row` in rowid (= insertion) order.  Each SQL
statement of the repository is embedded as a list transformation.  `ORDER
BY updated_at DESC` has no secondary sort key in the source SQL, so the
embedding sorts stably on `updated_at` alone (SQLite's sorter keeps scan
order for equal keys); equal timestamps keep their table order. -/

/-- `Session['status']`. -/
inductive SStatus
  | idle
  | running
  | error
deriving DecidableEq, Repr

def SStatus.toStr : SStatus → String
  | SStatus.idle => "idle"
  | SStatus.running => "running"
  | SStatus.error => "error"

/-- The in-memory `Session` record (shared/types). -/
structure Session where
  id : String
  name : String
  status : SStatus
  workingDir : String
  createdAt : String
  updatedAt : String
deriving DecidableEq, Repr

/-- A row of the `sessions` table. -/
structure Row where
  id : String
  name : String
  status : String
  working_dir : String
  created_at : String
  updated_at : String
  deleted_at : Option String
deriving DecidableEq, Repr

/-- The `as Session['status']` cast of `rowToSession` (rows written by the
repository only ever hold the three canonical strings). -/
def statusOfStr (s : String) : SStatus :=
  if s = "running" then SStatus.running
  else if s = "error" then SStatus.error
  else SStatus.idle

/-- `rowToSession`. -/
def rowToSession (r : Row) : Session :=
  ⟨r.id, r.name, statusOfStr r.status, r.working_dir, r.created_at, r.updated_at⟩

/-- `SQL.INSERT` with `deletedAt: null`; SQLite enforces `id TEXT PRIMARY
KEY` (001_initial_schema), so inserting a duplicate id throws. -/
def repoCreate (tbl : List Row) (s : Session) : Except String (List Row) :=
  if tbl.any (fun r => r.id = s.id) then
    Except.error "UNIQUE constraint failed: sessions.id"
  else
    Except.ok (tbl ++
      [⟨s.id, s.name, s.status.toStr, s.workingDir, s.createdAt, s.updatedAt, none⟩])

/-- `SQL.UPDATE`: set name, status, working_dir, updated_at on the row
with the given id; `created_at` and `deleted_at` are not touched. -/
def repoUpdate (tbl : List Row) (s : Session) : List Row :=
  tbl.map fun r =>
    if r.id = s.id then
      { r with
        name := s.name
        status := s.status.toStr
        working_dir := s.workingDir
        updated_at := s.updatedAt }
    else r

/-- `SQL.SOFT_DELETE`: set `deleted_at` on the row with the given id. -/
def repoDelete (tbl : List Row) (id now : String) : List Row :=
  tbl.map fun r => if r.id = id then { r with deleted_at := some now } else r

/-- `deleted_at IS NULL`. -/
def notDeleted (r : Row) : Bool := r.deleted_at = none

/-- Byte-lexicographic comparison of text values, as SQLite's BINARY
collation (memcmp) orders TEXT columns; for the repository's ASCII
ISO-8601 timestamps this coincides with codepoint order. -/
def memLe : List Char → List Char → Bool
  | [], _ => true
  | _ :: _, [] => false
  | a :: as, b :: bs =>
    if a.toNat < b.toNat then true
    else if b.toNat < a.toNat then false
    else memLe as bs

/-- `a ≤ b` under BINARY collation. -/
def strLe (a b : String) : Bool := memLe a.toList b.toList

/-- One insertion step of a stable descending sort on `updated_at`
(`ORDER BY updated_at DESC` with no secondary key: SQLite returns equal
keys in scan order, so a row coming later in the table is placed after an
equal row already in position). -/
def insertByUpdatedDesc (r : Row) : List Row → List Row
  | [] => [r]
  | x :: xs =>
    if strLe x.updated_at r.updated_at then r :: x :: xs
    else x :: insertByUpdatedDesc r xs

/-- Stable sort of the table by `updated_at` descending. -/
def sortByUpdatedDesc : List Row → List Row
  | [] => []
  | r :: rs => insertByUpdatedDesc r (sortByUpdatedDesc rs)

/-- `SessionRepository.findAll` (`SQL.FIND_ALL`). -/
def findAll (tbl : List Row) : List Session :=
  (sortByUpdatedDesc (tbl.filter notDeleted)).map rowToSession

/-- `SessionRepository.findMostRecent` (`SQL.FIND_MOST_RECENT`:
`... WHERE deleted_at IS NULL ORDER BY updated_at DESC LIMIT 1`). -/
def findMostRecent (tbl : List Row) : Option Session :=
  ((sortByUpdatedDesc (tbl.filter notDeleted)).head?).map rowToSession

/-- Rows sharing one `updated_at`, inserted in the order b, a, c. -/
def rowB : Row := ⟨"b", "B", "idle", "/w", "t0", "t5", none⟩

def rowA : Row := ⟨"a", "A", "idle", "/w", "t0", "t5", none⟩

def rowC : Row := ⟨"c", "C", "idle", "/w", "t0", "t5", none⟩

def tieTable : List Row := [rowB, rowA, rowC]

/-! ## SessionManager (SessionManager.ts)

The manager is modelled with its backing session repository configured
(`config.sessionRepository` present), which is the configuration the
claims address.  `updateSessionStatus` is an `async` method that is always
invoked without `await` and contains no `await` before (or after) its
mutations, so its whole body runs synchronously at the call site; it is
embedded as a plain function.  The returned `Session` object of
`createSession` is the same mutable object held in the managed-session
map, so the embedding re-reads it from the map after the spawn attempt. -/

/-- Substring test: `needle` is a prefix of `hay`. -/
def hasPrefixList : List Char → List Char → Bool
  | [], _ => true
  | _ :: _, [] => false
  | p :: ps, c :: cs => p = c && hasPrefixList ps cs

/-- Substring test at any position (JavaScript `hay.includes(needle)`). -/
def hasSubList (needle : List Char) : List Char → Bool
  | [] => hasPrefixList needle []
  | c :: cs => hasPrefixList needle (c :: cs) || hasSubList needle cs

/-- JavaScript `s.includes(sub)`. -/
def jsIncludes (s sub : String) : Bool := hasSubList sub.toList s.toList

/-- The filesystem and path facts `validateWorkingDir` consults, passed
explicitly: `resolveNorm` is `normalize(resolve(·))`, `existsPath` is
`existsSync`, `isDirectory` is `statSync(·).isDirectory()`. -/
structure FS where
  cwd : String
  resolveNorm : String → String
  existsPath : String → Bool
  isDirectory : String → Bool

/-- `SessionManager.validateWorkingDir`.  The traversal check runs on the
raw user-supplied string, before any filesystem access, so it rejects
irrespective of whether the resolved path exists. -/
def validateWorkingDir (fs : FS) (workingDir : String) : Except String String :=
  let normalized := fs.resolveNorm workingDir
  if jsIncludes workingDir ".." then
    Except.error "Invalid working directory: path traversal not allowed"
  else if fs.existsPath normalized = false then
    Except.error ("Working directory does not exist: " ++ normalized)
  else if fs.isDirectory normalized = false then
    Except.error ("Path is not a directory: " ++ normalized)
  else Except.ok normalized

/-- Status events emitted to the manager's subscribers
(`this.emit('status', ...)`). -/
inductive EmittedEv
  | statusEv (sid : String) (status : SStatus)
deriving DecidableEq, Repr

/-- A `ManagedSession`: `{ session, parser, processHandle? }`. -/
structure MSession where
  session : Session
  parser : ParserState Unit
  processHandle : Option String
deriving DecidableEq, Repr

/-- The manager's mutable state: the `sessions` map (in insertion order,
as a JavaScript `Map`), the rows of the backing sessions table, and the
trace of emitted status events. -/
structure SMState where
  sessions : List (String × MSession)
  repo : List Row
  trace : List EmittedEv
deriving DecidableEq, Repr

/-- `Map.get`. -/
def mapGet {α : Type} (m : List (String × α)) (k : String) : Option α :=
  (m.find? (fun p => p.1 = k)).map (fun p => p.2)

/-- `Map.set`: updates in place if the key exists, else appends. -/
def mapSet {α : Type} : List (String × α) → String → α → List (String × α)
  | [], k, v => [(k, v)]
  | (k', v') :: rest, k, v =>
    if k' = k then (k, v) :: rest else (k', v') :: mapSet rest k v

/-- `Map.delete`. -/
def mapRemove {α : Type} (m : List (String × α)) (k : String) : List (String × α) :=
  m.filter (fun p => ¬ p.1 = k)

/-- `SessionManager.updateSessionStatus`: set the status and `updatedAt`
on the managed session, emit a status event, persist through the
repository (`UPDATE` never throws for a present-or-absent id). -/
def updateSessionStatus (sid : String) (status : SStatus) (now : String)
    (st : SMState) : SMState :=
  match mapGet st.sessions sid with
  | none => st
  | some m =>
    let s1 := { m.session with status := status, updatedAt := now }
    { st with
      sessions := mapSet st.sessions sid { m with session := s1 }
      trace := st.trace ++ [EmittedEv.statusEv sid status]
      repo := repoUpdate st.repo s1 }

/-- `SessionManager.spawnProcess`.  `spawnRes` is the outcome of
`processPool.spawn`: `some handleId` on success, `none` when the spawn
throws synchronously.  On success the handle is bound and the parser
reset; on failure the session status is set to `error` (which emits a
status event) and a second explicit status event is emitted. -/
def spawnProcess (sid : String) (spawnRes : Option String) (now : String)
    (st : SMState) : SMState :=
  match mapGet st.sessions sid with
  | none => st
  | some m =>
    match spawnRes with
    | some h =>
      { st with
        sessions := mapSet st.sessions sid
          { m with processHandle := some h, parser := reset m.parser } }
    | none =>
      let st1 := updateSessionStatus sid SStatus.error now st
      { st1 with trace := st1.trace ++ [EmittedEv.statusEv sid SStatus.error] }

/-- `CreateSessionOptions`. -/
structure COpts where
  name : Option String
  workingDir : Option String

/-- `options.workingDir || process.cwd()` (`''` is falsy). -/
def requestedWorkingDir (fs : FS) (opts : COpts) : String :=
  match opts.workingDir with
  | some w => if w = "" then fs.cwd else w
  | none => fs.cwd

/-- `options.name || `Session ${id.slice(0, 4)}``. -/
def defaultedName (opts : COpts) (id : String) : String :=
  match opts.name with
  | some n => if n = "" then "Session " ++ (id.take 4) else n
  | none => "Session " ++ (id.take 4)

/-- `SessionManager.createSession`.  `id` is the `nanoid(10)` draw and
`now` the ISO timestamp, passed explicitly.  Validation happens before
any state is touched; the repository insert can throw (duplicate id); the
spawn attempt happens after registration, and the returned session is
re-read from the map because `spawnProcess` may have mutated it. -/
def createSession (fs : FS) (opts : COpts) (id now : String) (spawnRes : Option String)
    (st : SMState) : Except String (SMState × Session) :=
  match validateWorkingDir fs (requestedWorkingDir fs opts) with
  | Except.error e => Except.error e
  | Except.ok workingDir =>
    let session : Session := ⟨id, defaultedName opts id, SStatus.idle, workingDir, now, now⟩
    let managed : MSession := ⟨session, ParserState.initial Unit, none⟩
    let st1 := { st with sessions := mapSet st.sessions id managed }
    match repoCreate st1.repo session with
    | Except.error e => Except.error e
    | Except.ok tbl =>
      let st2 := { st1 with repo := tbl }
      let st3 := spawnProcess id spawnRes now st2
      let ret := match mapGet st3.sessions id with
        | some m => m.session
        | none => session
      Except.ok (st3, ret)

/-- `SessionManager.sendMessage`: no-op for an unknown id; spawn a process
if none is bound (outcome `spawnRes`); then unconditionally set status to
`running`.  The final write of the message to the process input has no
effect on manager state and is not modelled. -/
def sendMessage (sid msg : String) (spawnRes : Option String) (now : String)
    (st : SMState) : SMState :=
  match mapGet st.sessions sid with
  | none => st
  | some m =>
    let st1 := if m.processHandle = none then spawnProcess sid spawnRes now st else st
    updateSessionStatus sid SStatus.running now st1

/-- `SessionManager.handleProcessExit`: unbind the handle, then status
`idle` on exit code 0, `error` otherwise. -/
def handleProcessExit (sid : String) (code : Int) (now : String) (st : SMState) : SMState :=
  match mapGet st.sessions sid with
  | none => st
  | some m =>
    let st1 := { st with sessions := mapSet st.sessions sid { m with processHandle := none } }
    updateSessionStatus sid (if code = 0 then SStatus.idle else SStatus.error) now st1

/-- `SessionManager.destroySession` with the repository backend: kill the
process if bound (pool effect not modelled), soft-delete the row, remove
from memory; silent no-op for an unknown id. -/
def destroySession (sid now : String) (st : SMState) : SMState :=
  match mapGet st.sessions sid with
  | none => st
  | some _ =>
    let st1 := { st with repo := repoDelete st.repo sid now }
    { st1 with sessions := mapRemove st1.sessions sid }

/-- `SessionManager.getSession`. -/
def getSession (st : SMState) (sid : String) : Option Session :=
  (mapGet st.sessions sid).map (fun m => m.session)

/-- `SessionManager.getAllSessions`. -/
def getAllSessions (st : SMState) : List Session :=
  st.sessions.map (fun p => p.2.session)

/-- A filesystem on which every path exists and is a directory. -/
def fsAllOk : FS := ⟨"/cwd", fun s => s, fun _ => true, fun _ => true⟩

/-- The empty manager state. -/
def emptySM : SMState := ⟨[], [], []⟩

/-- The manager state holding one idle session `s1` with no bound process,
backed by its repository row. -/
def c2State : SMState :=
  ⟨[("s1", ⟨⟨"s1", "S", SStatus.idle, "/w", "t0", "t0"⟩, ParserState.initial Unit, none⟩)],
   [⟨"s1", "S", "idle", "/w", "t0", "t0", none⟩], []⟩

/-- The session record `createSession` builds before registering it. -/
def newSession (opts : COpts) (id now wd : String) : Session :=
  ⟨id, defaultedName opts id, SStatus.idle, wd, now, now⟩

/-- The row `repoCreate` inserts for a fresh session. -/
def newRow (opts : COpts) (id now wd : String) : Row :=
  ⟨id, defaultedName opts id, "idle", wd, now, now, none⟩

/-- A manager holding sessions `s1` and `s2` with their repository rows. -/
def c9State : SMState :=
  ⟨[("s1", ⟨⟨"s1", "A", SStatus.idle, "/w", "t0", "t1"⟩, ParserState.initial Unit, none⟩),
    ("s2", ⟨⟨"s2", "B", SStatus.idle, "/w", "t0", "t2"⟩, ParserState.initial Unit, none⟩)],
   [⟨"s1", "A", "idle", "/w", "t0", "t1", none⟩, ⟨"s2", "B", "idle", "/w", "t0", "t2", none⟩],
   []⟩

/-! ## Output buffering (SessionManager.bufferOutput / flushOutputsSync)

The buffer configuration and state are factored out of the manager state:
`hasRepo` is whether `config.outputRepository` is set, `bufferSize` and
`bufferInterval` the configured limits.  `setTimeout` is embedded as the
stored deadline `timerDeadline`; the timer callback is the explicit step
`fireFlushTimer`.  `flushed` records the batches passed to
`outputRepo.createBatch` (whose errors the source swallows). -/

structure BufCfg where
  hasRepo : Bool
  bufferSize : Nat
  bufferInterval : Nat

structure BufState (α : Type) where
  buffer : List α
  timerDeadline : Option Nat
  flushed : List (List α)
deriving DecidableEq, Repr

/-- The state of a manager that has never buffered an output. -/
def BufState.start (α : Type) : BufState α := ⟨[], none, []⟩

/-- `SessionManager.flushOutputsSync`: clear the timer; if the buffer is
empty or no output repository is configured, stop; otherwise drain the
buffer and batch-insert it. -/
def flushOutputsSync {α : Type} (cfg : BufCfg) (st : BufState α) : BufState α :=
  let st1 := { st with timerDeadline := none }
  if st1.buffer.length = 0 ∨ cfg.hasRepo = false then st1
  else { st1 with buffer := [], flushed := st1.flushed ++ [st1.buffer] }

/-- `SessionManager.bufferOutput` at wall-clock time `now`: push the item;
flush immediately if the buffer reached `bufferSize`; otherwise arm the
flush timer if none is pending. -/
def bufferOutput {α : Type} (cfg : BufCfg) (now : Nat) (o : α) (st : BufState α) :
    BufState α :=
  let st1 := { st with buffer := st.buffer ++ [o] }
  if cfg.bufferSize ≤ st1.buffer.length then flushOutputsSync cfg st1
  else if st1.timerDeadline = none then
    { st1 with timerDeadline := some (now + cfg.bufferInterval) }
  else st1

/-- The `setTimeout` callback firing: it runs `flushOutputsSync`. -/
def fireFlushTimer {α : Type} (cfg : BufCfg) (st : BufState α) : BufState α :=
  flushOutputsSync cfg st

/-- Buffer a sequence of (time, item) pairs in order. -/
def feedOutputs {α : Type} (cfg : BufCfg) : List (Nat × α) → BufState α → BufState α
  | [], st => st
  | (t, o) :: rest, st => feedOutputs cfg rest (bufferOutput cfg t o st)

/-! ## Properties of the string primitives

`jsSplit (a ++ b)` is `jsSplit a` with its last segment glued onto the
first segment of `jsSplit b`: the algebra behind the parser's line
reassembly across chunk boundaries. -/

theorem jsSplit_ne_nil (s : Str) : jsSplit s ≠ [] := by
  induction s with
  | nil => simp [jsSplit]
  | cons c rest ih =>
    simp only [jsSplit]
    split
    · simp
    · cases h : jsSplit rest with
      | nil => simp
      | cons a t => simp

theorem jsSplit_nil : jsSplit [] = [[]] := rfl

theorem jsSplit_newline_cons (s : Str) : jsSplit ('\n' :: s) = [] :: jsSplit s := by
  simp [jsSplit]

theorem jsSplit_char_cons (c : Char) (s : Str) (h : ¬ c = '\n') :
    jsSplit (c :: s) =
      match jsSplit s with
      | [] => [[c]]
      | hd :: t => (c :: hd) :: t := by
  simp [jsSplit, h]

theorem glueFrag_nil_frag (ls : List Str) (h : ls ≠ []) : glueFrag [] ls = ls := by
  cases ls with
  | nil => exact absurd rfl h
  | cons a t => simp [glueFrag]

theorem jsSplit_append (a b : Str) :
    jsSplit (a ++ b) = initFrags (jsSplit a) ++ glueFrag (lastFrag (jsSplit a)) (jsSplit b) := by
  induction a with
  | nil =>
    simp only [List.nil_append, jsSplit_nil, initFrags, lastFrag]
    exact (glueFrag_nil_frag _ (jsSplit_ne_nil b)).symm
  | cons c a ih =>
    by_cases hc : c = '\n'
    · subst hc
      rw [List.cons_append, jsSplit_newline_cons, jsSplit_newline_cons, ih]
      cases h : jsSplit a with
      | nil => exact absurd h (jsSplit_ne_nil a)
      | cons h0 t0 => simp [initFrags, lastFrag]
    · rw [List.cons_append, jsSplit_char_cons c _ hc, jsSplit_char_cons c _ hc]
      cases ha : jsSplit a with
      | nil => exact absurd ha (jsSplit_ne_nil a)
      | cons h0 t0 =>
        rw [ih, ha]
        cases t0 with
        | nil =>
          simp only [initFrags, lastFrag, List.nil_append]
          cases hb : jsSplit b with
          | nil => exact absurd hb (jsSplit_ne_nil b)
          | cons hb0 tb => simp [glueFrag]
        | cons t1 ts =>
          simp only [initFrags, lastFrag]
          cases hg : glueFrag (lastFrag (t1 :: ts)) (jsSplit b) with
          | nil => cases hjb : jsSplit b <;> simp [hjb, glueFrag] at hg
          | cons g0 gs => simp [List.cons_append]

theorem lastFrag_cons_cons (a b : Str) (ls : List Str) :
    lastFrag (a :: b :: ls) = lastFrag (b :: ls) := rfl

theorem initFrags_cons_cons (a b : Str) (ls : List Str) :
    initFrags (a :: b :: ls) = a :: initFrags (b :: ls) := rfl

theorem lastFrag_append (A B : List Str) (h : B ≠ []) :
    lastFrag (A ++ B) = lastFrag B := by
  induction A with
  | nil => rfl
  | cons a A ih =>
    have hne : A ++ B ≠ [] := by
      intro hAB
      rcases List.append_eq_nil.mp hAB with ⟨-, hB⟩
      exact h hB
    cases hAB : A ++ B with
    | nil => exact absurd hAB hne
    | cons x xs =>
      calc lastFrag ((a :: A) ++ B) = lastFrag (a :: x :: xs) := by rw [List.cons_append, hAB]
        _ = lastFrag (x :: xs) := lastFrag_cons_cons a x xs
        _ = lastFrag B := by rw [← hAB]; exact ih

theorem initFrags_append (A B : List Str) (h : B ≠ []) :
    initFrags (A ++ B) = A ++ initFrags B := by
  induction A with
  | nil => rfl
  | cons a A ih =>
    have hne : A ++ B ≠ [] := by
      intro hAB
      rcases List.append_eq_nil.mp hAB with ⟨-, hB⟩
      exact h hB
    cases hAB : A ++ B with
    | nil => exact absurd hAB hne
    | cons x xs =>
      calc initFrags ((a :: A) ++ B) = initFrags (a :: x :: xs) := by rw [List.cons_append, hAB]
        _ = a :: initFrags (x :: xs) := initFrags_cons_cons a x xs
        _ = a :: (A ++ initFrags B) := by rw [← hAB]; exact congrArg _ ih
        _ = (a :: A) ++ initFrags B := rfl

theorem glueFrag_ne_nil (p : Str) (ls : List Str) : glueFrag p ls ≠ [] := by
  cases ls <;> simp [glueFrag]

/-- Every segment returned by `jsSplit` is newline-free; in particular the
pending fragment kept in the parser's buffer never contains `'\n'`. -/
theorem jsSplit_no_newline (s : Str) : ∀ l ∈ jsSplit s, '\n' ∉ l := by
  induction s with
  | nil => simp [jsSplit]
  | cons c rest ih =>
    by_cases hc : c = '\n'
    · subst hc
      rw [jsSplit_newline_cons]
      intro l hl
      rcases List.mem_cons.mp hl with hl | hl
      · simp [hl]
      · exact ih l hl
    · rw [jsSplit_char_cons c rest hc]
      cases h : jsSplit rest with
      | nil => exact absurd h (jsSplit_ne_nil rest)
      | cons h0 t =>
        intro l hl
        rcases List.mem_cons.mp hl with hl | hl
        · subst hl
          intro hmem
          rcases List.mem_cons.mp hmem with hmem | hmem
          · exact hc hmem.symm
          · exact ih h0 (h ▸ List.mem_cons_self h0 t) hmem
        · exact ih l (h ▸ List.mem_cons_of_mem h0 hl)

/-- A newline-free string splits into just itself. -/
theorem jsSplit_of_no_newline (s : Str) (h : '\n' ∉ s) : jsSplit s = [s] := by
  induction s with
  | nil => rfl
  | cons c rest ih =>
    have hc : ¬ c = '\n' := fun hcc => h (hcc ▸ List.mem_cons_self c rest)
    rw [jsSplit_char_cons c rest hc, ih (fun hr => h (List.mem_cons_of_mem c hr))]

/-! ## Line-level characterisation of `parse` in json mode -/

theorem processLines_spec {E : Type} (jp : Str → Option E) (st : ParserState E)
    (ls : List Str) :
    processLines jp st ls =
      ({ st with detectedMode := if allGood jp ls then st.detectedMode else some DMode.raw },
       lineOuts jp ls) := by
  induction ls generalizing st with
  | nil => simp [processLines, allGood, lineOuts]
  | cons l ls ih =>
    by_cases hb : jsTrim l = []
    · simp [processLines, hb, ih, allGood, lineOuts]
    · cases hj : jp l with
      | some e =>
        simp [processLines, hb, parseLine, hj, ih, allGood, lineOuts, lineOut]
      | none =>
        simp only [processLines, if_neg hb, parseLine, hj, ih, allGood, List.all_cons,
          if_neg hb, lineOuts, List.filterMap_cons, lineOut]
        simp [hj]

theorem parse_spec_json {E : Type} (jp : Str → Option E) (st : ParserState E) (chunk : Str)
    (hmode : st.mode ≠ OutputMode.raw) (hdm : st.detectedMode = some DMode.json) :
    parse jp st chunk =
      ({ mode := st.mode,
         detectedMode :=
           if allGood jp (initFrags (jsSplit (st.lineBuffer ++ chunk))) then some DMode.json
           else some DMode.raw,
         lineBuffer := lastFrag (jsSplit (st.lineBuffer ++ chunk)) },
       lineOuts jp (initFrags (jsSplit (st.lineBuffer ++ chunk)))) := by
  have h1 : ¬ (st.mode = OutputMode.auto ∧ st.detectedMode = none) := by
    rintro ⟨-, h⟩
    rw [hdm] at h
    exact Option.noConfusion h
  rw [parse, if_neg hmode]
  simp only [if_neg h1]
  rw [if_neg (by rw [hdm]; intro h; exact DMode.noConfusion (Option.some.inj h))]
  rw [processLines_spec]
  split <;> simp_all

/-- In a fresh `auto` parser the first `parse` call behaves exactly as if
the detected mode had already been set to `detectFormat` of its chunk. -/
theorem parse_detect_step {E : Type} (jp : Str → Option E) (b chunk : Str) :
    parse jp ⟨OutputMode.auto, none, b⟩ chunk =
      parse jp ⟨OutputMode.auto, some (detectFormat jp chunk), b⟩ chunk := by
  rw [parse, parse]
  simp

/-- `lastFrag` of a non-empty list is a member of it. -/
theorem lastFrag_mem (ls : List Str) (h : ls ≠ []) : lastFrag ls ∈ ls := by
  induction ls with
  | nil => exact absurd rfl h
  | cons a ls ih =>
    cases ls with
    | nil => simp [lastFrag]
    | cons b t => exact List.mem_cons_of_mem a (ih (by simp))

/-- The pending fragment after splitting is newline-free. -/
theorem lastFrag_jsSplit_no_newline (s : Str) : '\n' ∉ lastFrag (jsSplit s) :=
  jsSplit_no_newline s _ (lastFrag_mem _ (jsSplit_ne_nil s))

/-- Decomposition of split-then-pop across an append: the complete lines
of `x ++ y` are those of `x` followed by those of `pending(x) ++ y`, and
the pending fragment of `x ++ y` is that of `pending(x) ++ y`. -/
theorem jsSplit_decomp (x y : Str) :
    initFrags (jsSplit (x ++ y)) =
      initFrags (jsSplit x) ++ initFrags (jsSplit (lastFrag (jsSplit x) ++ y)) ∧
    lastFrag (jsSplit (x ++ y)) = lastFrag (jsSplit (lastFrag (jsSplit x) ++ y)) := by
  have hp : jsSplit (lastFrag (jsSplit x)) = [lastFrag (jsSplit x)] :=
    jsSplit_of_no_newline _ (lastFrag_jsSplit_no_newline x)
  have hpy : jsSplit (lastFrag (jsSplit x) ++ y) =
      glueFrag (lastFrag (jsSplit x)) (jsSplit y) := by
    rw [jsSplit_append, hp]
    simp [initFrags, lastFrag]
  have hxy := jsSplit_append x y
  rw [hpy] at *
  constructor
  · rw [hxy, initFrags_append _ _ (glueFrag_ne_nil _ _)]
  · rw [hxy, lastFrag_append _ _ (glueFrag_ne_nil _ _)]

/-- Feeding any chunk sequence to a parser locked in json mode, when every
complete non-blank line of the total text parses as JSON: the outputs are
the parsed events of the complete lines of the total text, and the buffer
retains the final incomplete fragment.  Chunk boundaries are invisible. -/
theorem feed_spec_json {E : Type} (jp : Str → Option E) (b : Str) (cs : List Str)
    (hb : '\n' ∉ b)
    (hgood : allGood jp (initFrags (jsSplit (b ++ cs.flatten))) = true) :
    feed jp ⟨OutputMode.auto, some DMode.json, b⟩ cs =
      (⟨OutputMode.auto, some DMode.json, lastFrag (jsSplit (b ++ cs.flatten))⟩,
       lineOuts jp (initFrags (jsSplit (b ++ cs.flatten)))) := by
  induction cs generalizing b with
  | nil =>
    have hsb : jsSplit b = [b] := jsSplit_of_no_newline b hb
    simp [feed, hsb, lastFrag, initFrags, lineOuts]
  | cons c cs ih =>
    have hflat : b ++ (c :: cs).flatten = (b ++ c) ++ cs.flatten := by
      simp [List.flatten_cons, List.append_assoc]
    obtain ⟨hinit, hlast⟩ := jsSplit_decomp (b ++ c) cs.flatten
    rw [hflat, hinit] at hgood
    rw [allGood, List.all_append] at hgood
    have hgood1 : allGood jp (initFrags (jsSplit (b ++ c))) = true :=
      (Bool.and_eq_true _ _ |>.mp hgood).1
    have hgood2 :
        allGood jp (initFrags (jsSplit (lastFrag (jsSplit (b ++ c)) ++ cs.flatten))) = true :=
      (Bool.and_eq_true _ _ |>.mp hgood).2
    have hstep := parse_spec_json jp ⟨OutputMode.auto, some DMode.json, b⟩ c
      (by simp) (by simp)
    simp only at hstep
    have hih := ih (lastFrag (jsSplit (b ++ c))) (lastFrag_jsSplit_no_newline (b ++ c)) hgood2
    rw [feed, hstep]
    simp only [if_pos hgood1, hih]
    rw [hflat, hinit, hlast]
    simp [lineOuts, List.filterMap_append]

/-! ## Sanity checks of the JSON recognizer -/

theorem jsonOk_object_num : jsonOk ['{', '"', 'a', '"', ':', '1', '}'] = true := by decide

theorem jsonOk_truncated_object : jsonOk ['{', '"', 'a', '"'] = false := by decide

theorem jsonOk_empty_object : jsonOk ['{', '}'] = true := by decide

theorem jsonOk_nested_array :
    jsonOk ['{', '"', 'a', '"', ':', '[', '1', ',', ' ', 't', 'r', 'u', 'e', ']', '}'] = true := by
  decide

theorem jsonOk_plain_text : jsonOk ['h', 'i'] = false := by decide

/-! ## Claims C1, C5, C6, C10 — the OutputParser -/

/-- Helper for C5: a single `parse` call in auto mode with detected mode
`raw` echoes the chunk unchanged and leaves the whole state unchanged. -/
theorem parse_after_downgrade {E : Type} (jp : Str → Option E) (st : ParserState E)
    (chunk : Str) (hmode : st.mode = OutputMode.auto)
    (hdm : st.detectedMode = some DMode.raw) :
    parse jp st chunk = (st, [⟨OType.raw, chunk, none⟩]) := by
  rw [parse]
  rw [if_neg (by rw [hmode]; intro h; exact OutputMode.noConfusion h)]
  simp [hdm]

/-- C5: for a parser in auto mode that has downgraded to raw after a
malformed JSON line, every subsequent `parse(chunk)` call emits the chunk
as one raw event — even if the chunk is valid JSON — and the state never
leaves the downgraded configuration. -/
theorem c5_raw_downgrade_persists {E : Type} (jp : Str → Option E) (st : ParserState E)
    (chunks : List Str) (hmode : st.mode = OutputMode.auto)
    (hdm : st.detectedMode = some DMode.raw) :
    feed jp st chunks = (st, chunks.map (fun c => ⟨OType.raw, c, none⟩)) := by
  induction chunks with
  | nil => rfl
  | cons c cs ih =>
    rw [feed]
    simp [parse_after_downgrade jp st c hmode hdm, ih]

/-- Witness for C5 at a concrete downgraded parser fed a chunk that is
itself valid JSON. -/
theorem c5_raw_downgrade_persists_witness :
    jpJson exLine = some () ∧
      feed jpJson ⟨OutputMode.auto, some DMode.raw, []⟩ [exLine] =
        (⟨OutputMode.auto, some DMode.raw, []⟩, [⟨OType.raw, exLine, none⟩]) :=
  ⟨by decide, c5_raw_downgrade_persists jpJson _ [exLine] rfl rfl⟩

/-- C6: `reset()` on an auto-mode parser (here: one downgraded to raw with
stale buffered input) clears the pending-line buffer and the detected
format, and a following `parse` whose chunk is a valid JSON object line
re-detects json mode and emits the parsed event. -/
theorem c6_reset_redetects {E : Type} (jp : Str → Option E) (st : ParserState E)
    (l : Str) (e : E) (hmode : st.mode = OutputMode.auto)
    (hnl : '\n' ∉ l) (hbrace : ∃ t, l = '{' :: t)
    (htrim : jsTrim (l ++ ['\n']) = l) (hblank : jsTrim l ≠ [])
    (hjp : jp l = some e) :
    reset st = ⟨OutputMode.auto, none, []⟩ ∧
      parse jp (reset st) (l ++ ['\n']) =
        (⟨OutputMode.auto, some DMode.json, []⟩, [⟨OType.parsed, l, some e⟩]) := by
  have hreset : reset st = ⟨OutputMode.auto, none, []⟩ := by
    rw [reset, hmode]
    simp
  refine ⟨hreset, ?_⟩
  rw [hreset]
  have hsl : jsSplit l = [l] := jsSplit_of_no_newline l hnl
  have hdet : detectFormat jp (l ++ ['\n']) = DMode.json := by
    obtain ⟨t, ht⟩ := hbrace
    rw [detectFormat]
    simp only [htrim, hsl]
    subst ht
    simp [hjp]
  have hsplit : jsSplit (l ++ ['\n']) = [l, []] := by
    rw [jsSplit_append, hsl]
    simp [initFrags, lastFrag, jsSplit, glueFrag]
  rw [parse]
  simp only [hdet]
  simp [hsplit, lastFrag, initFrags, lastFrag_cons_cons, processLines, hblank,
    parseLine, hjp]

/-- Witness for C6: a parser downgraded to raw with a dirty buffer, reset,
then fed `{"a":1}` plus a newline. -/
theorem c6_reset_redetects_witness :
    reset (⟨OutputMode.auto, some DMode.raw, ['x']⟩ : ParserState Unit) =
        ⟨OutputMode.auto, none, []⟩ ∧
      parse jpJson (reset (⟨OutputMode.auto, some DMode.raw, ['x']⟩ : ParserState Unit))
          (exLine ++ ['\n']) =
        (⟨OutputMode.auto, some DMode.json, []⟩, [⟨OType.parsed, exLine, some ()⟩]) :=
  c6_reset_redetects jpJson _ exLine () rfl (by decide) ⟨_, rfl⟩ (by decide) (by decide)
    (by decide)

/-- C10: within one `parse()` call in json mode, a malformed line records
the raw downgrade in `detectedMode` but does not stop line-by-line
processing of the remaining complete lines of the same chunk: a valid
JSON line after the malformed one is still emitted as a parsed event,
and the downgrade takes effect only from the next `parse()` call on. -/
theorem c10_downgrade_not_midchunk {E : Type} (jp : Str → Option E) (l1 l2 : Str) (e : E)
    (hnl1 : '\n' ∉ l1) (hnl2 : '\n' ∉ l2)
    (hb1 : jsTrim l1 ≠ []) (hb2 : jsTrim l2 ≠ [])
    (hj1 : jp l1 = none) (hj2 : jp l2 = some e) :
    parse jp ⟨OutputMode.auto, some DMode.json, []⟩ (l1 ++ '\n' :: (l2 ++ ['\n'])) =
        (⟨OutputMode.auto, some DMode.raw, []⟩,
         [⟨OType.raw, l1, none⟩, ⟨OType.parsed, l2, some e⟩]) ∧
      ∀ chunk : Str,
        parse jp ⟨OutputMode.auto, some DMode.raw, []⟩ chunk =
          (⟨OutputMode.auto, some DMode.raw, []⟩, [⟨OType.raw, chunk, none⟩]) := by
  constructor
  · have hsplit : jsSplit (l1 ++ '\n' :: (l2 ++ ['\n'])) = [l1, l2, []] := by
      rw [jsSplit_append, jsSplit_of_no_newline l1 hnl1, jsSplit_newline_cons,
        jsSplit_append, jsSplit_of_no_newline l2 hnl2]
      simp [initFrags, lastFrag, jsSplit, glueFrag]
    have h := parse_spec_json jp ⟨OutputMode.auto, some DMode.json, []⟩
      (l1 ++ '\n' :: (l2 ++ ['\n'])) (by simp) (by simp)
    simp only [List.nil_append, hsplit] at h
    rw [h]
    simp [initFrags, lastFrag, allGood, lineOuts, lineOut, hb1, hb2, hj1, hj2,
      lastFrag_cons_cons, initFrags_cons_cons]
  · intro chunk
    exact parse_after_downgrade jp _ chunk rfl rfl

/-- Witness for C10: the chunk `not json\n{"a":1}\n` parsed in one call. -/
theorem c10_downgrade_not_midchunk_witness :
    parse jpJson ⟨OutputMode.auto, some DMode.json, []⟩
          (exBadLine ++ '\n' :: (exLine ++ ['\n'])) =
        (⟨OutputMode.auto, some DMode.raw, []⟩,
         [⟨OType.raw, exBadLine, none⟩, ⟨OType.parsed, exLine, some ()⟩]) ∧
      ∀ chunk : Str,
        parse jpJson ⟨OutputMode.auto, some DMode.raw, []⟩ chunk =
          (⟨OutputMode.auto, some DMode.raw, []⟩, [⟨OType.raw, chunk, none⟩]) :=
  c10_downgrade_not_midchunk jpJson exBadLine exLine () (by decide) (by decide)
    (by decide) (by decide) (by decide) (by decide)

/-- Counterexample to C1 as stated: the chunks `{"a"` and `:1}\n`
concatenate to the valid newline-delimited JSON text `{"a":1}\n`, but a
fresh auto-mode parser fed the two chunks emits two raw events (format
auto-detection runs on the first chunk, whose first line `{"a"` is not
complete JSON, so the parser locks to raw), while fed the concatenation
in one call it emits a single parsed event. -/
theorem c1_counterexample :
    jpJson (cexChunk1 ++ [':', '1', '}']) = some () ∧
      (feed jpJson (ParserState.initial Unit) [cexChunk1, cexChunk2]).2 =
        [⟨OType.raw, cexChunk1, none⟩, ⟨OType.raw, cexChunk2, none⟩] ∧
      (feed jpJson (ParserState.initial Unit) [cexChunk1 ++ cexChunk2]).2 =
        [⟨OType.parsed, exLine, some ()⟩] ∧
      (feed jpJson (ParserState.initial Unit) [cexChunk1, cexChunk2]).2 ≠
        (feed jpJson (ParserState.initial Unit) [cexChunk1 ++ cexChunk2]).2 := by
  refine ⟨by decide, by decide, by decide, by decide⟩

/-- A fresh parser whose first chunk detects as json behaves like a parser
already locked to json mode. -/
theorem feed_fresh_detect_json {E : Type} (jp : Str → Option E) (c : Str) (cs : List Str)
    (hd : detectFormat jp c = DMode.json) :
    feed jp (ParserState.initial E) (c :: cs) =
      feed jp ⟨OutputMode.auto, some DMode.json, []⟩ (c :: cs) := by
  rw [feed, feed, ParserState.initial, parse_detect_step, hd]

/-- C1 (amended): if format detection on the first chunk succeeds (its
first newline-delimited segment is complete valid JSON) and every
complete non-blank line of the concatenated input parses as JSON, then
the emitted outputs are exactly the parsed events of the complete lines
of the concatenation — independent of how the input is split into
chunks — and every emitted output is a parsed event, none raw. -/
theorem c1_amended_chunking_invariance {E : Type} (jp : Str → Option E)
    (c c' : Str) (cs cs' : List Str)
    (hcat : (c :: cs).flatten = (c' :: cs').flatten)
    (hd : detectFormat jp c = DMode.json) (hd' : detectFormat jp c' = DMode.json)
    (hgood : allGood jp (initFrags (jsSplit ((c :: cs).flatten))) = true) :
    (feed jp (ParserState.initial E) (c :: cs)).2 =
        lineOuts jp (initFrags (jsSplit ((c :: cs).flatten))) ∧
      (feed jp (ParserState.initial E) (c :: cs)).2 =
        (feed jp (ParserState.initial E) (c' :: cs')).2 ∧
      ∀ o ∈ (feed jp (ParserState.initial E) (c :: cs)).2, o.type = OType.parsed := by
  have hmain : ∀ (d : Str) (ds : List Str), detectFormat jp d = DMode.json →
      allGood jp (initFrags (jsSplit ((d :: ds).flatten))) = true →
      (feed jp (ParserState.initial E) (d :: ds)).2 =
        lineOuts jp (initFrags (jsSplit ((d :: ds).flatten))) := by
    intro d ds hdet hg
    rw [feed_fresh_detect_json jp d ds hdet]
    have := feed_spec_json jp [] (d :: ds) (by simp)
      (by simpa using hg)
    simp only [List.nil_append] at this
    rw [this]
  have h1 := hmain c cs hd hgood
  have h2 := hmain c' cs' hd' (by rw [← hcat]; exact hgood)
  refine ⟨h1, ?_, ?_⟩
  · rw [h1, h2, hcat]
  · intro o ho
    rw [h1] at ho
    rw [lineOuts] at ho
    rcases List.mem_filterMap.mp ho with ⟨l, hl, hout⟩
    by_cases hb : jsTrim l = []
    · simp [hb] at hout
    · simp only [if_neg hb] at hout
      have hgl : (jp l).isSome = true := by
        rw [allGood, List.all_eq_true] at hgood
        have := hgood l hl
        simpa [hb] using this
      cases hj : jp l with
      | none => rw [hj] at hgl; simp at hgl
      | some e =>
        rw [lineOut, hj] at hout
        rw [← Option.some.inj hout]

/-- Witness for the amended C1: `{"a":1}\n` delivered whole versus split
immediately after the complete JSON object (both splits keep the first
line of the first chunk complete, so detection succeeds either way). -/
theorem c1_amended_chunking_invariance_witness :
    (feed jpJson (ParserState.initial Unit) [exLine ++ ['\n']]).2 =
        lineOuts jpJson (initFrags (jsSplit (((exLine ++ ['\n']) :: []).flatten))) ∧
      (feed jpJson (ParserState.initial Unit) [exLine ++ ['\n']]).2 =
        (feed jpJson (ParserState.initial Unit) [exLine, ['\n']]).2 ∧
      ∀ o ∈ (feed jpJson (ParserState.initial Unit) [exLine ++ ['\n']]).2,
        o.type = OType.parsed := by
  have h := c1_amended_chunking_invariance jpJson (exLine ++ ['\n']) exLine [] [['\n']]
    (by decide) (by decide) (by decide) (by decide)
  exact h

/-! ## Order lemmas and claim C4 — the SessionRepository -/

theorem memLe_total (a b : List Char) (h : memLe a b = false) : memLe b a = true := by
  induction a generalizing b with
  | nil => rw [memLe] at h; exact absurd h (by simp)
  | cons x xs ih =>
    cases b with
    | nil => rw [memLe]
    | cons y ys =>
      rw [memLe] at h ⊢
      by_cases hxy : x.toNat < y.toNat
      · rw [if_pos hxy] at h; exact absurd h (by simp)
      · rw [if_neg hxy] at h
        by_cases hyx : y.toNat < x.toNat
        · rw [if_pos hyx]
        · rw [if_neg hyx] at h
          rw [if_neg hyx, if_neg hxy]
          exact ih ys h

theorem memLe_trans (a b c : List Char) (hab : memLe a b = true) (hbc : memLe b c = true) :
    memLe a c = true := by
  induction a generalizing b c with
  | nil => rw [memLe]
  | cons x xs ih =>
    cases b with
    | nil => rw [memLe] at hab; exact absurd hab (by simp)
    | cons y ys =>
      cases c with
      | nil => rw [memLe] at hbc; exact absurd hbc (by simp)
      | cons z zs =>
        rw [memLe] at hab hbc ⊢
        rcases Nat.lt_trichotomy x.toNat y.toNat with h1 | h1 | h1
        · rcases Nat.lt_trichotomy y.toNat z.toNat with h2 | h2 | h2
          · rw [if_pos (by omega : x.toNat < z.toNat)]
          · rw [if_pos (by omega : x.toNat < z.toNat)]
          · rw [if_neg (by omega : ¬ y.toNat < z.toNat), if_pos h2] at hbc
            exact absurd hbc (by simp)
        · rcases Nat.lt_trichotomy y.toNat z.toNat with h2 | h2 | h2
          · rw [if_pos (by omega : x.toNat < z.toNat)]
          · rw [if_neg (by omega : ¬ x.toNat < y.toNat),
              if_neg (by omega : ¬ y.toNat < x.toNat)] at hab
            rw [if_neg (by omega : ¬ y.toNat < z.toNat),
              if_neg (by omega : ¬ z.toNat < y.toNat)] at hbc
            rw [if_neg (by omega : ¬ x.toNat < z.toNat),
              if_neg (by omega : ¬ z.toNat < x.toNat)]
            exact ih ys zs hab hbc
          · rw [if_neg (by omega : ¬ y.toNat < z.toNat), if_pos h2] at hbc
            exact absurd hbc (by simp)
        · rw [if_neg (by omega : ¬ x.toNat < y.toNat), if_pos h1] at hab
          exact absurd hab (by simp)

theorem mem_insertByUpdatedDesc (r x : Row) (l : List Row) :
    x ∈ insertByUpdatedDesc r l ↔ x = r ∨ x ∈ l := by
  induction l with
  | nil => simp [insertByUpdatedDesc]
  | cons y ys ih =>
    rw [insertByUpdatedDesc]
    split
    · simp [or_comm, or_assoc, List.mem_cons]
    · simp only [List.mem_cons, ih]
      tauto

theorem mem_sortByUpdatedDesc (x : Row) (l : List Row) :
    x ∈ sortByUpdatedDesc l ↔ x ∈ l := by
  induction l with
  | nil => simp [sortByUpdatedDesc]
  | cons y ys ih =>
    rw [sortByUpdatedDesc, mem_insertByUpdatedDesc]
    simp [ih]

theorem insertByUpdatedDesc_ne_nil (r : Row) (l : List Row) :
    insertByUpdatedDesc r l ≠ [] := by
  cases l with
  | nil => simp [insertByUpdatedDesc]
  | cons y ys =>
    rw [insertByUpdatedDesc]
    split <;> simp

theorem sortByUpdatedDesc_eq_nil_iff (l : List Row) :
    sortByUpdatedDesc l = [] ↔ l = [] := by
  cases l with
  | nil => simp [sortByUpdatedDesc]
  | cons y ys =>
    rw [sortByUpdatedDesc]
    simp [insertByUpdatedDesc_ne_nil]

theorem strLe_refl (a : String) : strLe a a = true := by
  rw [strLe]
  induction a.toList with
  | nil => rw [memLe]
  | cons x xs ih =>
    rw [memLe]
    simp [ih]

theorem strLe_trans (a b c : String) (hab : strLe a b = true) (hbc : strLe b c = true) :
    strLe a c = true :=
  memLe_trans _ _ _ hab hbc

theorem strLe_total (a b : String) (h : strLe a b = false) : strLe b a = true :=
  memLe_total _ _ h

theorem sorted_insertByUpdatedDesc (r : Row) (l : List Row)
    (h : l.Sorted (fun a b => strLe b.updated_at a.updated_at = true)) :
    (insertByUpdatedDesc r l).Sorted (fun a b => strLe b.updated_at a.updated_at = true) := by
  induction l with
  | nil => simp [insertByUpdatedDesc]
  | cons y ys ih =>
    rw [List.sorted_cons] at h
    rw [insertByUpdatedDesc]
    split
    · rename_i hle
      rw [List.sorted_cons]
      constructor
      · intro b hb
        rcases List.mem_cons.mp hb with hb | hb
        · exact hb ▸ hle
        · exact strLe_trans _ _ _ (h.1 b hb) hle
      · rw [List.sorted_cons]
        exact h
    · rename_i hlt
      rw [List.sorted_cons]
      constructor
      · intro b hb
        rcases (mem_insertByUpdatedDesc r b ys).mp hb with hb | hb
        · subst hb
          refine strLe_total _ _ ?_
          cases hx : strLe y.updated_at b.updated_at
          · rfl
          · exact absurd hx hlt
        · exact h.1 b hb
      · exact ih h.2

theorem sorted_sortByUpdatedDesc (l : List Row) :
    (sortByUpdatedDesc l).Sorted (fun a b => strLe b.updated_at a.updated_at = true) := by
  induction l with
  | nil => simp [sortByUpdatedDesc]
  | cons y ys ih => exact sorted_insertByUpdatedDesc y _ ih

/-- Counterexample to C4's tie-break clause: three non-deleted sessions
share the greatest `updated_at`; `findMostRecent` returns the one first
in table (rowid) order, id `b` — neither the least id (`a`) nor the
greatest (`c`), so ties are not broken by id.  The SQL carries no
secondary sort key. -/
theorem c4_counterexample :
    (∀ r ∈ tieTable, notDeleted r = true ∧ r.updated_at = "t5") ∧
      (findMostRecent tieTable).map Session.id = some "b" ∧
      (strLe rowA.id rowB.id = true ∧ rowA.id ≠ rowB.id) ∧
      (strLe rowB.id rowC.id = true ∧ rowB.id ≠ rowC.id) := by
  refine ⟨by decide, by decide, by decide, by decide⟩

/-- C4 (amended): `findMostRecent` returns `null` exactly when no
non-deleted session exists, and otherwise a non-deleted session whose
`updated_at` is greatest among non-deleted rows; ties keep table order
(the SQL has no id tie-breaker). -/
theorem c4_amended_max_updated (tbl : List Row) :
    (findMostRecent tbl = none ↔ tbl.filter notDeleted = []) ∧
      ∀ s, findMostRecent tbl = some s →
        ∃ r ∈ tbl, notDeleted r = true ∧ rowToSession r = s ∧
          ∀ r2 ∈ tbl, notDeleted r2 = true → strLe r2.updated_at r.updated_at = true := by
  constructor
  · rw [findMostRecent, Option.map_eq_none', List.head?_eq_none_iff,
      sortByUpdatedDesc_eq_nil_iff]
  · intro s hs
    rw [findMostRecent] at hs
    rcases Option.map_eq_some'.mp hs with ⟨r, hr, hrs⟩
    cases hsort : sortByUpdatedDesc (tbl.filter notDeleted) with
    | nil => rw [hsort] at hr; exact absurd hr (by simp)
    | cons r0 t =>
      rw [hsort] at hr
      have hr0 : r = r0 := (by simpa using hr : r0 = r).symm
      subst hr0
      have hmem : r ∈ tbl.filter notDeleted := by
        rw [← mem_sortByUpdatedDesc, hsort]
        exact List.mem_cons_self r t
      have hmem2 := List.mem_filter.mp hmem
      refine ⟨r, hmem2.1, hmem2.2, hrs, ?_⟩
      intro r2 hr2 hnd2
      have hmemr2 : r2 ∈ sortByUpdatedDesc (tbl.filter notDeleted) :=
        (mem_sortByUpdatedDesc r2 _).mpr (List.mem_filter.mpr ⟨hr2, hnd2⟩)
      rw [hsort] at hmemr2
      rcases List.mem_cons.mp hmemr2 with hh | hh
      · exact hh ▸ strLe_refl _
      · have hsorted := sorted_sortByUpdatedDesc (tbl.filter notDeleted)
        rw [hsort, List.sorted_cons] at hsorted
        exact hsorted.1 r2 hh

/-- Witness for the amended C4 on the three-way tie table. -/
theorem c4_amended_max_updated_witness :
    ∃ r ∈ tieTable, notDeleted r = true ∧ rowToSession r = rowToSession rowB ∧
      ∀ r2 ∈ tieTable, notDeleted r2 = true → strLe r2.updated_at r.updated_at = true :=
  (c4_amended_max_updated tieTable).2 (rowToSession rowB) (by decide)

/-! ## Claims C2, C3, C7, C9 — the SessionManager -/

theorem mapGet_set_self {α : Type} (m : List (String × α)) (k : String) (v : α) :
    mapGet (mapSet m k v) k = some v := by
  induction m with
  | nil => simp [mapSet, mapGet, List.find?]
  | cons p rest ih =>
    rw [mapSet]
    split
    · simp [mapGet, List.find?]
    · rename_i hne
      rw [mapGet, List.find?]
      simp only [hne, decide_False]
      exact ih

theorem mem_mapSet_ne {α : Type} (m : List (String × α)) (k : String) (v : α)
    (p : String × α) (hp : p ∈ mapSet m k v) (hk : p.1 ≠ k) : p ∈ m := by
  induction m with
  | nil =>
    rw [mapSet] at hp
    rcases List.mem_cons.mp hp with h | h
    · exact absurd (by rw [h]) hk
    · exact absurd h (List.not_mem_nil p)
  | cons q rest ih =>
    rw [mapSet] at hp
    split at hp
    · rename_i heq
      rcases List.mem_cons.mp hp with h | h
      · exact absurd (by rw [h]) hk
      · exact List.mem_cons_of_mem q h
    · rcases List.mem_cons.mp hp with h | h
      · exact h ▸ List.mem_cons_self q rest
      · exact List.mem_cons_of_mem q (ih h)

/-- C7: `createSession` rejects, with a synchronous validation error
surfaced to the caller, every working-directory string containing a
traversal segment `..` — regardless of the filesystem (whether the
resolved path exists or is a directory) — and returns that error before
any session is registered or persisted (the embedding's error carries no
successor state: validation precedes every mutation in the source). -/
theorem c7_traversal_rejected (fs : FS) (opts : COpts) (id now : String)
    (spawnRes : Option String) (st : SMState) (w : String)
    (hw : opts.workingDir = some w) (hdots : jsIncludes w ".." = true) :
    validateWorkingDir fs w =
        Except.error "Invalid working directory: path traversal not allowed" ∧
      createSession fs opts id now spawnRes st =
        Except.error "Invalid working directory: path traversal not allowed" := by
  have hw0 : ¬ w = "" := by
    intro h
    rw [h] at hdots
    exact absurd hdots (by decide)
  have hval : validateWorkingDir fs w =
      Except.error "Invalid working directory: path traversal not allowed" := by
    rw [validateWorkingDir]
    simp [hdots]
  refine ⟨hval, ?_⟩
  have hreq : requestedWorkingDir fs opts = w := by
    rw [requestedWorkingDir, hw]
    simp [hw0]
  rw [createSession, hreq, hval]

/-- Witness for C7: `/tmp/../etc` is rejected although the filesystem
reports it existing and a directory. -/
theorem c7_traversal_rejected_witness :
    validateWorkingDir fsAllOk "/tmp/../etc" =
        Except.error "Invalid working directory: path traversal not allowed" ∧
      createSession fsAllOk ⟨none, some "/tmp/../etc"⟩ "abcdefghij" "t0" (some "h1") emptySM =
        Except.error "Invalid working directory: path traversal not allowed" :=
  c7_traversal_rejected fsAllOk ⟨none, some "/tmp/../etc"⟩ "abcdefghij" "t0" (some "h1")
    emptySM "/tmp/../etc" rfl (by decide)

/-- C2 (bug evaluation): `sendMessage` on a session with no process whose
spawn attempt throws leaves the session status `running`, not `error`:
`spawnProcess`'s catch sets `error` (emitting two `error` status events),
but `sendMessage` then unconditionally overwrites the status with
`running` even though the write is skipped and no message is in flight. -/
theorem c2_spawn_failure_leaves_running :
    (getSession (sendMessage "s1" "hello" none "t1" c2State) "s1").map Session.status =
        some SStatus.running ∧
      (sendMessage "s1" "hello" none "t1" c2State).trace =
        [EmittedEv.statusEv "s1" SStatus.error, EmittedEv.statusEv "s1" SStatus.error,
         EmittedEv.statusEv "s1" SStatus.running] ∧
      (getSession (sendMessage "s1" "hello" none "t1" c2State) "s1").map Session.status ≠
        some SStatus.error := by
  refine ⟨by decide, by decide, by decide⟩

/-- Counterexample to C3's status clause: with a filesystem that validates
the directory but a spawn that throws synchronously, `createSession`
succeeds but the session object it returns — the same mutable object the
spawn-failure handler already updated — carries status `error`, not
`idle`. -/
theorem c3_counterexample :
    (createSession fsAllOk ⟨none, some "/tmp"⟩ "abcdefghij" "t0" none emptySM).toOption.map
        (fun p => p.2.status) = some SStatus.error ∧
      some SStatus.error ≠ some SStatus.idle := by
  refine ⟨by decide, by decide⟩

/-- `createSession` on a fresh id with a successful spawn: the registered
managed session gets the handle bound and a reset parser, and the
returned session is the `idle` one just built. -/
theorem createSession_spawn_ok (fs : FS) (opts : COpts) (id now h : String)
    (st : SMState) (wd : String)
    (hval : validateWorkingDir fs (requestedWorkingDir fs opts) = Except.ok wd)
    (hins : st.repo.any (fun r => r.id = id) = false) :
    createSession fs opts id now (some h) st =
      Except.ok
        ({ st with
            sessions := mapSet
              (mapSet st.sessions id ⟨newSession opts id now wd, ParserState.initial Unit, none⟩)
              id
              ⟨newSession opts id now wd, reset (ParserState.initial Unit), some h⟩
            repo := st.repo ++ [newRow opts id now wd] },
         newSession opts id now wd) := by
  rw [createSession, hval]
  simp only [repoCreate]
  rw [if_neg (by simp [hins])]
  simp only [spawnProcess, mapGet_set_self]
  rfl

/-- `createSession` on a fresh id with a spawn that throws: the failure
handler sets the registered session to `error` (emitting two status
events), and the returned session — the same object — carries `error`. -/
theorem createSession_spawn_fail (fs : FS) (opts : COpts) (id now : String)
    (st : SMState) (wd : String)
    (hval : validateWorkingDir fs (requestedWorkingDir fs opts) = Except.ok wd)
    (hins : st.repo.any (fun r => r.id = id) = false) :
    createSession fs opts id now none st =
      Except.ok
        ({ st with
            sessions := mapSet
              (mapSet st.sessions id ⟨newSession opts id now wd, ParserState.initial Unit, none⟩)
              id
              ⟨⟨id, defaultedName opts id, SStatus.error, wd, now, now⟩,
               ParserState.initial Unit, none⟩
            repo := repoUpdate (st.repo ++ [newRow opts id now wd])
              ⟨id, defaultedName opts id, SStatus.error, wd, now, now⟩
            trace := st.trace ++
              [EmittedEv.statusEv id SStatus.error, EmittedEv.statusEv id SStatus.error] },
         ⟨id, defaultedName opts id, SStatus.error, wd, now, now⟩) := by
  rw [createSession, hval]
  simp only [repoCreate]
  rw [if_neg (by simp [hins])]
  simp only [spawnProcess, mapGet_set_self, updateSessionStatus]
  simp [newSession, newRow, SStatus.toStr]

/-- C3 (amended): when the working directory validates and the generated
id is fresh, `createSession` succeeds regardless of the spawn outcome
(a spawn failure is not a creation failure), and returns the newly
registered session whose id is the non-empty generated id, distinct from
every other session's id.  The session is created `idle`, but the
returned object reflects the synchronous spawn attempt performed during
creation: status `idle` when the spawn succeeded, `error` when it threw. -/
theorem c3_amended_creation (fs : FS) (opts : COpts) (id now : String)
    (spawnRes : Option String) (st : SMState) (wd : String)
    (hval : validateWorkingDir fs (requestedWorkingDir fs opts) = Except.ok wd)
    (hid : id ≠ "")
    (hfresh : ∀ r ∈ st.repo, r.id ≠ id)
    (hkeys : ∀ p ∈ st.sessions, p.2.session.id = p.1) :
    ∃ st2 ret, createSession fs opts id now spawnRes st = Except.ok (st2, ret) ∧
      ret.id = id ∧ ret.id ≠ "" ∧
      ret.status = (match spawnRes with
        | some _ => SStatus.idle
        | none => SStatus.error) ∧
      ∀ p ∈ st2.sessions, p.1 ≠ id → p.2.session.id ≠ id := by
  have hins : st.repo.any (fun r => r.id = id) = false := by
    cases h : st.repo.any (fun r => r.id = id)
    · rfl
    · rcases List.any_eq_true.mp h with ⟨r, hr, hr2⟩
      exact absurd (by simpa using hr2) (hfresh r hr)
  have hdistinct : ∀ (v1 v2 : MSession) (p : String × MSession),
      p ∈ mapSet (mapSet st.sessions id v1) id v2 → p.1 ≠ id → p.2.session.id ≠ id := by
    intro v1 v2 p hp hne
    have hp2 := mem_mapSet_ne _ _ _ p (mem_mapSet_ne _ _ _ p hp hne) hne
    rw [hkeys p hp2]
    exact hne
  cases spawnRes with
  | some h =>
    refine ⟨_, _, createSession_spawn_ok fs opts id now h st wd hval hins, rfl, hid, rfl, ?_⟩
    intro p hp hne
    exact hdistinct _ _ p hp hne
  | none =>
    refine ⟨_, _, createSession_spawn_fail fs opts id now st wd hval hins, rfl, hid, rfl, ?_⟩
    intro p hp hne
    exact hdistinct _ _ p hp hne

/-- Witness for the amended C3, on the empty manager with a spawn that
throws: creation still succeeds and the returned status is `error`. -/
theorem c3_amended_creation_witness :
    ∃ st2 ret,
      createSession fsAllOk ⟨none, some "/tmp"⟩ "abcdefghij" "t0" none emptySM =
          Except.ok (st2, ret) ∧
        ret.id = "abcdefghij" ∧ ret.id ≠ "" ∧
        ret.status = (match (none : Option String) with
          | some _ => SStatus.idle
          | none => SStatus.error) ∧
        ∀ p ∈ st2.sessions, p.1 ≠ "abcdefghij" → p.2.session.id ≠ "abcdefghij" :=
  c3_amended_creation fsAllOk ⟨none, some "/tmp"⟩ "abcdefghij" "t0" none emptySM "/tmp"
    rfl (by decide) (by simp [emptySM]) (by simp [emptySM])

theorem mapGet_remove_self {α : Type} (m : List (String × α)) (k : String) :
    mapGet (mapRemove m k) k = none := by
  induction m with
  | nil => rfl
  | cons p rest ih =>
    rw [mapRemove, List.filter]
    by_cases hp : p.1 = k
    · simp only [hp]
      simpa [mapRemove] using ih
    · simp only [decide_not, hp, decide_False, Bool.not_false]
      rw [mapGet, List.find?]
      simp only [hp, decide_False]
      simpa [mapRemove, mapGet] using ih

/-- Every row of a soft-deleted table that is still visible (`deleted_at
IS NULL`) has a different id from the deleted one. -/
theorem repoDelete_visible_ne (tbl : List Row) (sid now : String) :
    ∀ r ∈ repoDelete tbl sid now, notDeleted r = true → r.id ≠ sid := by
  intro r hr hnd
  rcases List.mem_map.mp hr with ⟨r0, hr0, hmap⟩
  by_cases hid : r0.id = sid
  · rw [if_pos hid] at hmap
    rw [← hmap] at hnd
    simp [notDeleted] at hnd
  · rw [if_neg hid] at hmap
    rw [← hmap]
    exact hid

/-- C9: after `destroySession(id)` on a repository-backed manager holding
that session, the session is gone from the in-memory map and the live
listing; its row still exists in the table (same row count) with
`deleted_at` set and every other column unchanged; every other session
and row is untouched; and the deleted session is excluded from `findAll`
and `findMostRecent`. -/
theorem c9_destroy_soft_delete (st : SMState) (sid now : String) (m : MSession)
    (hm : mapGet st.sessions sid = some m)
    (hkeys : ∀ p ∈ st.sessions, p.2.session.id = p.1) :
    mapGet (destroySession sid now st).sessions sid = none ∧
      (∀ s ∈ getAllSessions (destroySession sid now st), s.id ≠ sid) ∧
      (∀ p ∈ st.sessions, p.1 ≠ sid → p ∈ (destroySession sid now st).sessions) ∧
      (∀ r ∈ st.repo, r.id = sid →
        ({ r with deleted_at := some now } : Row) ∈ (destroySession sid now st).repo) ∧
      (∀ r ∈ st.repo, r.id ≠ sid → r ∈ (destroySession sid now st).repo) ∧
      (destroySession sid now st).repo.length = st.repo.length ∧
      (∀ s ∈ findAll (destroySession sid now st).repo, s.id ≠ sid) ∧
      (∀ s, findMostRecent (destroySession sid now st).repo = some s → s.id ≠ sid) := by
  have hd : destroySession sid now st =
      { st with
        repo := repoDelete st.repo sid now
        sessions := mapRemove st.sessions sid } := by
    rw [destroySession, hm]
  rw [hd]
  refine ⟨mapGet_remove_self st.sessions sid, ?_, ?_, ?_, ?_, ?_, ?_, ?_⟩
  · intro s hs
    rcases List.mem_map.mp hs with ⟨p, hp, hps⟩
    have hp2 := List.mem_filter.mp hp
    have hne : p.1 ≠ sid := by simpa using hp2.2
    rw [← hps, hkeys p hp2.1]
    exact hne
  · intro p hp hne
    exact List.mem_filter.mpr ⟨hp, by simpa using hne⟩
  · intro r hr hid
    have hmem := List.mem_map_of_mem
      (fun r => if r.id = sid then { r with deleted_at := some now } else r) hr
    simp only [repoDelete]
    simpa [hid] using hmem
  · intro r hr hid
    have hmem := List.mem_map_of_mem
      (fun r => if r.id = sid then { r with deleted_at := some now } else r) hr
    simp only [repoDelete]
    simpa [hid] using hmem
  · exact List.length_map st.repo _
  · intro s hs
    rcases List.mem_map.mp hs with ⟨r, hr, hrs⟩
    have hrf := List.mem_filter.mp ((mem_sortByUpdatedDesc r _).mp hr)
    have := repoDelete_visible_ne st.repo sid now r hrf.1 hrf.2
    rw [← hrs]
    exact this
  · intro s hs
    rw [findMostRecent] at hs
    rcases Option.map_eq_some'.mp hs with ⟨r, hr, hrs⟩
    cases hsort : sortByUpdatedDesc ((repoDelete st.repo sid now).filter notDeleted) with
    | nil => rw [hsort] at hr; exact absurd hr (by simp)
    | cons r0 t =>
      rw [hsort] at hr
      have hr0 : r = r0 := by simpa using hr.symm
      have hmem : r ∈ (repoDelete st.repo sid now).filter notDeleted := by
        rw [← mem_sortByUpdatedDesc, hsort, hr0]
        exact List.mem_cons_self r0 t
      have hrf := List.mem_filter.mp hmem
      have := repoDelete_visible_ne st.repo sid now r hrf.1 hrf.2
      rw [← hrs]
      exact this

/-- Witness for C9: destroying `s1` in the two-session manager. -/
theorem c9_destroy_soft_delete_witness :
    mapGet (destroySession "s1" "t3" c9State).sessions "s1" = none ∧
      (∀ s ∈ getAllSessions (destroySession "s1" "t3" c9State), s.id ≠ "s1") ∧
      (∀ p ∈ c9State.sessions, p.1 ≠ "s1" → p ∈ (destroySession "s1" "t3" c9State).sessions) ∧
      (∀ r ∈ c9State.repo, r.id = "s1" →
        ({ r with deleted_at := some "t3" } : Row) ∈ (destroySession "s1" "t3" c9State).repo) ∧
      (∀ r ∈ c9State.repo, r.id ≠ "s1" → r ∈ (destroySession "s1" "t3" c9State).repo) ∧
      (destroySession "s1" "t3" c9State).repo.length = c9State.repo.length ∧
      (∀ s ∈ findAll (destroySession "s1" "t3" c9State).repo, s.id ≠ "s1") ∧
      (∀ s, findMostRecent (destroySession "s1" "t3" c9State).repo = some s → s.id ≠ "s1") :=
  c9_destroy_soft_delete c9State "s1" "t3"
    ⟨⟨"s1", "A", SStatus.idle, "/w", "t0", "t1"⟩, ParserState.initial Unit, none⟩
    (by decide) (by decide)

/-! ## Claim C8 — output buffering -/

theorem feedOutputs_append {α : Type} (cfg : BufCfg) (a b : List (Nat × α))
    (st : BufState α) :
    feedOutputs cfg (a ++ b) st = feedOutputs cfg b (feedOutputs cfg a st) := by
  induction a generalizing st with
  | nil => rfl
  | cons p rest ih =>
    obtain ⟨t, o⟩ := p
    rw [List.cons_append, feedOutputs, feedOutputs, ih]

/-- While the buffer stays below `bufferSize` and a timer is armed, items
accumulate in order and neither the timer nor the flush log changes. -/
theorem feedOutputs_below {α : Type} (cfg : BufCfg) (rest : List (Nat × α))
    (B : List α) (d : Nat) (F : List (List α))
    (hlen : B.length + rest.length < cfg.bufferSize) :
    feedOutputs cfg rest ⟨B, some d, F⟩ = ⟨B ++ rest.map Prod.snd, some d, F⟩ := by
  induction rest generalizing B with
  | nil => simp [feedOutputs]
  | cons p rest ih =>
    obtain ⟨t, o⟩ := p
    rw [feedOutputs, bufferOutput]
    simp only [List.length_cons] at hlen
    rw [if_neg (by simp; omega)]
    rw [if_neg (by simp)]
    have := ih (B ++ [o]) (by simp; omega)
    rw [this]
    simp

/-- C8: with an output repository configured, (a) buffering exactly
`bufferSize` items from an empty buffer performs one immediate
synchronous flush whose batch holds all the items, leaving the buffer
empty and no timer pending; (b) buffering fewer than `bufferSize` items
arms exactly one timer, at the first item's time plus the flush interval,
and when that timer fires the single flush drains every pending item. -/
theorem c8_buffer_flush_policy {α : Type} (cfg : BufCfg) (items : List (Nat × α))
    (hrepo : cfg.hasRepo = true) :
    (items.length = cfg.bufferSize → items ≠ [] →
      feedOutputs cfg items (BufState.start α) = ⟨[], none, [items.map Prod.snd]⟩) ∧
      ∀ t o rest, items = (t, o) :: rest → items.length < cfg.bufferSize →
        feedOutputs cfg items (BufState.start α) =
            ⟨o :: rest.map Prod.snd, some (t + cfg.bufferInterval), []⟩ ∧
          fireFlushTimer cfg (feedOutputs cfg items (BufState.start α)) =
            ⟨[], none, [o :: rest.map Prod.snd]⟩ := by
  have hsmall : ∀ (t : Nat) (o : α) (rest : List (Nat × α)),
      ((t, o) :: rest).length < cfg.bufferSize →
      feedOutputs cfg ((t, o) :: rest) (BufState.start α) =
        ⟨o :: rest.map Prod.snd, some (t + cfg.bufferInterval), []⟩ := by
    intro t o rest hlt
    simp only [List.length_cons] at hlt
    rw [feedOutputs, BufState.start, bufferOutput]
    rw [if_neg (by simp; omega)]
    rw [if_pos (by simp)]
    have := feedOutputs_below cfg rest [o] (t + cfg.bufferInterval) [] (by simp; omega)
    simp only [List.nil_append] at this ⊢
    rw [this]
    simp
  constructor
  · intro hlen hne
    rcases List.eq_nil_or_concat items with h | ⟨ys, p, h⟩
    · exact absurd h hne
    · obtain ⟨t, o⟩ := p
      rw [List.concat_eq_append] at h
      subst h
      rw [feedOutputs_append]
      have hy : ys.length + 1 = cfg.bufferSize := by
        simpa using hlen
      cases ys with
      | nil =>
        simp only [List.length_nil] at hy
        rw [feedOutputs, feedOutputs, feedOutputs, bufferOutput, BufState.start]
        rw [if_pos (by simp; omega)]
        rw [flushOutputsSync]
        rw [if_neg (by simp [hrepo])]
        simp
      | cons q qs =>
        obtain ⟨t1, o1⟩ := q
        rw [hsmall t1 o1 qs (by simp at hy ⊢; omega)]
        rw [feedOutputs, feedOutputs, bufferOutput]
        rw [if_pos (by simp at hy ⊢; omega)]
        rw [flushOutputsSync]
        rw [if_neg (by simp [hrepo])]
        simp
  · intro t o rest hitems hlt
    subst hitems
    refine ⟨hsmall t o rest hlt, ?_⟩
    rw [hsmall t o rest hlt, fireFlushTimer, flushOutputsSync]
    rw [if_neg (by simp [hrepo])]
    simp

/-- Witness for C8 with `bufferSize = 2`: two items flush immediately;
one item arms the timer at `5 + 100` and flushes when it fires. -/
theorem c8_buffer_flush_policy_witness :
    (feedOutputs ⟨true, 2, 100⟩ [(5, 10), (7, 20)] (BufState.start Nat) =
        ⟨[], none, [[10, 20]]⟩) ∧
      (feedOutputs ⟨true, 2, 100⟩ [(5, 10)] (BufState.start Nat) =
          ⟨[10], some 105, []⟩ ∧
        fireFlushTimer ⟨true, 2, 100⟩ (feedOutputs ⟨true, 2, 100⟩ [(5, 10)] (BufState.start Nat)) =
          ⟨[], none, [[10]]⟩) :=
  ⟨(c8_buffer_flush_policy ⟨true, 2, 100⟩ [(5, 10), (7, 20)] rfl).1 rfl (by decide),
   (c8_buffer_flush_policy ⟨true, 2, 100⟩ [(5, 10)] rfl).2 5 10 [] rfl (by decide)⟩
